import Mathlib

/-!
Shallow embedding of the position-list parser and the extraction engine of
the `cutr` crate (src/cutr/src/lib.rs), together with theorems settling the
specification claims about them.

Conventions of the embedding:
* Strings are modelled as `List Char`; `usize` is modelled as `Nat` with the
  64-bit overflow bound `USIZE_LIMIT = 2 ^ 64` made explicit where the Rust
  code calls `str::parse::<usize>()` (which errors on overflow).
* Fallible functions return `Except ParseError`.
* `Range<usize>` values are modelled as pairs `(start, end) : Nat × Nat`.
-/

namespace Cutr

/-- `usize::MAX + 1` on a 64-bit platform: `str::parse::<usize>()` fails on
any value at or above this bound. -/
def USIZE_LIMIT : Nat := 2 ^ 64

/-- Structured form of the errors `parse_pos` produces: `illegalToken t`
models the boxed `format!("illegal list value: {:?}", t)` error and
`rangeOrder a b` models the boxed
`format!("First number in range ({}) must be lower than second number ({})", a, b)`
error, keeping the data the message is rendered from. -/
inductive ParseError where
  | illegalToken (token : List Char)
  | rangeOrder (first second : Nat)
deriving DecidableEq, Repr

/-- Rust `char::escape_debug` as used by `{:?}` on `&str` (single quotes are
not escaped there): exact for ASCII; non-ASCII printable characters pass
through unescaped, matching Rust for all non-grapheme-extending characters. -/
def escDebugChar (c : Char) : List Char :=
  if c = '"' then ['\\', '"']
  else if c = '\\' then ['\\', '\\']
  else if c = '\n' then ['\\', 'n']
  else if c = '\t' then ['\\', 't']
  else if c = '\r' then ['\\', 'r']
  else if c.toNat < 0x20 || c.toNat == 0x7F then
    '\\' :: 'u' :: '\x7b' :: (Nat.toDigits 16 c.toNat ++ ['\x7d'])
  else [c]

/-- Rust `format!("{:?}", s)` for a string `s`: the string quoted, each
character Debug-escaped. -/
def rustDebugStr (s : List Char) : List Char :=
  '"' :: (s.map escDebugChar).flatten ++ ['"']

/-- The message each `parse_pos` error renders to (`compose_err_msg` and the
inline `format!` in the source). -/
def ParseError.message : ParseError → List Char
  | .illegalToken t =>
      ("illegal list value: ".data) ++ rustDebugStr t
  | .rangeOrder a b =>
      ("First number in range (".data) ++ (Nat.repr a).data
        ++ (") must be lower than second number (".data) ++ (Nat.repr b).data
        ++ [')']

/-- Value of a decimal digit string, most significant first (the value
`str::parse::<usize>` computes when it succeeds). -/
def digitsVal (l : List Char) : Nat :=
  l.foldl (fun a c => a * 10 + (c.toNat - 48)) 0

/-- Rust `usize::from_str` accepts one optional leading `+`. -/
def stripPlus (s : List Char) : List Char :=
  match s with
  | c :: rest => if c = '+' then rest else s
  | [] => s

/-- `s.parse::<usize>()`: optional leading `+`, then one or more ASCII
digits, failing on empty input, a non-digit, or 64-bit overflow. -/
def parseUsize (s : List Char) : Option Nat :=
  let ds := stripPlus s
  if ds.isEmpty then none
  else if ds.all Char.isDigit then
    if digitsVal ds < USIZE_LIMIT then some (digitsVal ds) else none
  else none

/-- The closure `convert_to_range_usize` in `parse_pos`: parse as `usize`,
reject `0`, return the 0-based index `v - 1`. -/
def convert_to_range_usize (s : List Char) : Except ParseError Nat :=
  match parseUsize s with
  | none => .error (.illegalToken s)
  | some v => if v = 0 then .error (.illegalToken s) else .ok (v - 1)

/-- The code-point ranges of the Unicode general category `Nd` (decimal
number), Unicode 15.0.0 — the class the regex crate's default-Unicode
`\d` (`\p{Nd}`) matches: 64 ranges, 680 code points, from ASCII `0-9`
through the fullwidth digits `０-９` (0xFF10-0xFF19) to the supplementary
planes. -/
def ndRanges : List (Nat × Nat) :=
  [(0x30, 0x39), (0x660, 0x669), (0x6F0, 0x6F9), (0x7C0, 0x7C9),
   (0x966, 0x96F), (0x9E6, 0x9EF), (0xA66, 0xA6F), (0xAE6, 0xAEF),
   (0xB66, 0xB6F), (0xBE6, 0xBEF), (0xC66, 0xC6F), (0xCE6, 0xCEF),
   (0xD66, 0xD6F), (0xDE6, 0xDEF), (0xE50, 0xE59), (0xED0, 0xED9),
   (0xF20, 0xF29), (0x1040, 0x1049), (0x1090, 0x1099), (0x17E0, 0x17E9),
   (0x1810, 0x1819), (0x1946, 0x194F), (0x19D0, 0x19D9), (0x1A80, 0x1A89),
   (0x1A90, 0x1A99), (0x1B50, 0x1B59), (0x1BB0, 0x1BB9), (0x1C40, 0x1C49),
   (0x1C50, 0x1C59), (0xA620, 0xA629), (0xA8D0, 0xA8D9), (0xA900, 0xA909),
   (0xA9D0, 0xA9D9), (0xA9F0, 0xA9F9), (0xAA50, 0xAA59), (0xABF0, 0xABF9),
   (0xFF10, 0xFF19), (0x104A0, 0x104A9), (0x10D30, 0x10D39), (0x11066, 0x1106F),
   (0x110F0, 0x110F9), (0x11136, 0x1113F), (0x111D0, 0x111D9), (0x112F0, 0x112F9),
   (0x11450, 0x11459), (0x114D0, 0x114D9), (0x11650, 0x11659), (0x116C0, 0x116C9),
   (0x11730, 0x11739), (0x118E0, 0x118E9), (0x11950, 0x11959), (0x11C50, 0x11C59),
   (0x11D50, 0x11D59), (0x11DA0, 0x11DA9), (0x11F50, 0x11F59), (0x16A60, 0x16A69),
   (0x16AC0, 0x16AC9), (0x16B50, 0x16B59), (0x1D7CE, 0x1D7FF), (0x1E140, 0x1E149),
   (0x1E2F0, 0x1E2F9), (0x1E4F0, 0x1E4F9), (0x1E950, 0x1E959), (0x1FBF0, 0x1FBF9)]

/-- What the regex crate's `\d` matches in its default Unicode mode:
a character of general category `Nd` (`\p{Nd}`), not just ASCII `0-9`. -/
def isNd (c : Char) : Bool :=
  ndRanges.any fun r => decide (r.1 ≤ c.toNat) && decide (c.toNat ≤ r.2)

/-- Attempt of the regex `(\d+)-(\d+)` anchored at the start of `l`, with
greedy `\d+` over the Unicode digit class `isNd`: a nonempty maximal
digit run, then `-`, then a nonempty maximal digit run.  Backtracking
`\d+` to a shorter run can never help (the character after a shortened
run is a digit, not `-`), so the greedy attempt succeeds iff any attempt
at this position does. -/
def hyphenMatchAt (l : List Char) : Option (List Char × List Char) :=
  if (l.takeWhile isNd).isEmpty then none
  else
    match l.dropWhile isNd with
    | '-' :: rest2 =>
      if (rest2.takeWhile isNd).isEmpty then none
      else some (l.takeWhile isNd, rest2.takeWhile isNd)
    | _ => none

/-- First match of the (unanchored) regex `(\d+)-(\d+)` in leftmost-first
semantics, returning the two capture groups.  `isSome` of this is
`re.is_match(item)`, and the value is what `re.captures(item)` yields for
groups 1 and 2. -/
def findHyphenMatch : List Char → Option (List Char × List Char)
  | [] => none
  | c :: cs =>
    match hyphenMatchAt (c :: cs) with
    | some m => some m
    | none => findHyphenMatch cs

/-- The body of the `for item in range.split(',')` loop of `parse_pos`,
for one token: reject any token containing `+`; try the bare-number
conversion; on failure fall back to the regex `(\d+)-(\d+)`, convert both
captures, require `start < end`, and yield `start..end + 1`. -/
def parsePosItem (item : List Char) : Except ParseError (Nat × Nat) :=
  if item.contains '+' then .error (.illegalToken item)
  else
    match convert_to_range_usize item with
    | .ok i => .ok (i, i + 1)
    | .error _ =>
      match findHyphenMatch item with
      | none => .error (.illegalToken item)
      | some (g1, g2) =>
        match convert_to_range_usize g1 with
        | .error e => .error e
        | .ok s =>
          match convert_to_range_usize g2 with
          | .error e => .error e
          | .ok e =>
            if s ≥ e then
              .error (.rangeOrder (s + 1) (e + 1))
            else
              .ok (s, e + 1)

/-- Rust `str::split(',')`: always at least one token, empty tokens kept. -/
def splitOnComma : List Char → List (List Char)
  | [] => [[]]
  | c :: rest =>
    if c = ',' then [] :: splitOnComma rest
    else
      match splitOnComma rest with
      | t :: ts => (c :: t) :: ts
      | [] => [[c]]

/-- The token loop of `parse_pos`: each token in order, first error aborts
the whole parse (the partially filled `pos` vector is dropped with the early
`return Err`). -/
def parsePosList : List (List Char) → Except ParseError (List (Nat × Nat))
  | [] => .ok []
  | t :: ts =>
    match parsePosItem t with
    | .error e => .error e
    | .ok r =>
      match parsePosList ts with
      | .error e => .error e
      | .ok rest => .ok (r :: rest)

/-- `parse_pos`: split the selector on `,` and process every token in
order. -/
def parse_pos (s : List Char) : Except ParseError (List (Nat × Nat)) :=
  parsePosList (splitOnComma s)

/-! ## Extraction -/

/-- The indices a Rust `Range { start, end }` iterates: `start, start+1, …,
end-1`, empty when `start ≥ end`. -/
def rangeIndices (r : Nat × Nat) : List Nat :=
  List.range' r.1 (r.2 - r.1)

/-- `extract_chars`: for each range in order, for each index in the range,
push the character at that index if it exists (`chars.get(i)`), silently
skipping out-of-bounds indices. -/
def extract_chars (line : List Char) (char_pos : List (Nat × Nat)) : List Char :=
  (char_pos.map fun r => (rangeIndices r).filterMap fun i => line.get? i).flatten

/-- UTF-8 encoding of one character, as byte values (what `str::as_bytes`
exposes per character). -/
def utf8EncodeChar (c : Char) : List Nat :=
  let n := c.toNat
  if n < 0x80 then [n]
  else if n < 0x800 then [0xC0 + n / 64, 0x80 + n % 64]
  else if n < 0x10000 then
    [0xE0 + n / 4096, 0x80 + n / 64 % 64, 0x80 + n % 64]
  else
    [0xF0 + n / 0x40000, 0x80 + n / 4096 % 64, 0x80 + n / 64 % 64, 0x80 + n % 64]

/-- The byte sequence of a string (`line.as_bytes()`). -/
def strBytes (line : List Char) : List Nat :=
  (line.map utf8EncodeChar).flatten

/-- Is `b` a UTF-8 continuation byte `0x80..=0xBF`? -/
def isCont (b : Nat) : Bool :=
  0x80 ≤ b && b ≤ 0xBF

/-- Valid range of the second byte of a multi-byte UTF-8 sequence with lead
byte `b0` (the table of `core::str`'s UTF-8 validation): `0xE0` narrows to
`0xA0..=0xBF`, `0xED` to `0x80..=0x9F` (no surrogates), `0xF0` to
`0x90..=0xBF`, `0xF4` to `0x80..=0x8F` (≤ U+10FFFF). -/
def cont2Ok (b0 b : Nat) : Bool :=
  if b0 = 0xE0 then 0xA0 ≤ b && b ≤ 0xBF
  else if b0 = 0xED then 0x80 ≤ b && b ≤ 0x9F
  else if b0 = 0xF0 then 0x90 ≤ b && b ≤ 0xBF
  else if b0 = 0xF4 then 0x80 ≤ b && b ≤ 0x8F
  else isCont b

/-- U+FFFD REPLACEMENT CHARACTER. -/
def replacementChar : Char := Char.ofNat 0xFFFD

/-- `String::from_utf8_lossy`: decode UTF-8, replacing errors with U+FFFD
by the Unicode "substitution of maximal subparts" policy Rust implements:
on an invalid sequence, the bytes forming a valid proper prefix of some
sequence are consumed together for a single U+FFFD, otherwise a single
byte is consumed per U+FFFD.
Each step consumes at least one byte, so running with `fuel` equal to the
length of the byte list decodes it completely; the fuel only makes the
recursion structural. -/
def utf8LossyFuel : Nat → List Nat → List Char
  | 0, _ => []
  | _, [] => []
  | fuel + 1, b0 :: rest =>
    if b0 < 0x80 then Char.ofNat b0 :: utf8LossyFuel fuel rest
    else if b0 < 0xC2 then replacementChar :: utf8LossyFuel fuel rest
    else if b0 < 0xE0 then
      match rest with
      | b1 :: rest1 =>
        if isCont b1 then
          Char.ofNat ((b0 - 0xC0) * 64 + (b1 - 0x80)) :: utf8LossyFuel fuel rest1
        else replacementChar :: utf8LossyFuel fuel (b1 :: rest1)
      | [] => [replacementChar]
    else if b0 < 0xF0 then
      match rest with
      | b1 :: rest1 =>
        if cont2Ok b0 b1 then
          match rest1 with
          | b2 :: rest2 =>
            if isCont b2 then
              Char.ofNat ((b0 - 0xE0) * 4096 + (b1 - 0x80) * 64 + (b2 - 0x80))
                :: utf8LossyFuel fuel rest2
            else replacementChar :: utf8LossyFuel fuel (b2 :: rest2)
          | [] => [replacementChar]
        else replacementChar :: utf8LossyFuel fuel (b1 :: rest1)
      | [] => [replacementChar]
    else if b0 < 0xF5 then
      match rest with
      | b1 :: rest1 =>
        if cont2Ok b0 b1 then
          match rest1 with
          | b2 :: rest2 =>
            if isCont b2 then
              match rest2 with
              | b3 :: rest3 =>
                if isCont b3 then
                  Char.ofNat ((b0 - 0xF0) * 0x40000 + (b1 - 0x80) * 4096
                      + (b2 - 0x80) * 64 + (b3 - 0x80))
                    :: utf8LossyFuel fuel rest3
                else replacementChar :: utf8LossyFuel fuel (b3 :: rest3)
              | [] => [replacementChar]
            else replacementChar :: utf8LossyFuel fuel (b2 :: rest2)
          | [] => [replacementChar]
        else replacementChar :: utf8LossyFuel fuel (b1 :: rest1)
      | [] => [replacementChar]
    else replacementChar :: utf8LossyFuel fuel rest

/-- `String::from_utf8_lossy` of a byte list. -/
def utf8Lossy (l : List Nat) : List Char :=
  utf8LossyFuel l.length l

/-- `extract_bytes`: for each range in order, collect each byte of the line
whose index is in the range and in bounds (`bytes.get(i)` filter-mapped),
then decode the accumulated bytes with `String::from_utf8_lossy`. -/
def extract_bytes (line : List Char) (byte_pos : List (Nat × Nat)) : List Char :=
  utf8Lossy ((byte_pos.map fun r =>
    (rangeIndices r).filterMap fun i => (strBytes line).get? i).flatten)

/-- `extract_fields`: for each range in order, collect each field of the
record whose index is in the range and in bounds (`record.get(i)`
filter-mapped). -/
def extract_fields (record : List (List Char)) (field_pos : List (Nat × Nat)) :
    List (List Char) :=
  (field_pos.map fun r => (rangeIndices r).filterMap fun i => record.get? i).flatten

/-! ## Spec-side token grammar

These definitions follow the specification's wording of the token grammar
(used to state the claims about `parse_pos`); they are compared against the
parser above, never used by it. -/

/-- A nonempty string of decimal digits (the spec's bare-number grammar). -/
def isDigits (l : List Char) : Bool :=
  !l.isEmpty && l.all Char.isDigit

/-- A valid bare token: decimal digits only, value at least `1` (and small
enough for `usize` so that the numeric parse succeeds). -/
def bareTok (t : List Char) : Bool :=
  isDigits t && decide (1 ≤ digitsVal t) && decide (digitsVal t < USIZE_LIMIT)

/-- A valid hyphenated token, per the spec grammar matched against the
whole token: digits, one hyphen, digits, both numbers at least `1` (and
parseable), first strictly smaller than second. -/
def hyphTok (t : List Char) : Bool :=
  match t.dropWhile Char.isDigit with
  | '-' :: m =>
    let n := t.takeWhile Char.isDigit
    !n.isEmpty && isDigits m && decide (1 ≤ digitsVal n)
      && decide (digitsVal n < digitsVal m) && decide (digitsVal m < USIZE_LIMIT)
  | _ => false

/-- A token the spec deems valid: bare or hyphenated. -/
def validTok (t : List Char) : Bool :=
  bareTok t || hyphTok t

/-- The range the spec assigns to a valid token: `[v-1, v)` for a bare
token of value `v`, `[n-1, m)` for a hyphenated token `n-m`. -/
def tokVal (t : List Char) : Nat × Nat :=
  if bareTok t then (digitsVal t - 1, digitsVal t)
  else (digitsVal (t.takeWhile Char.isDigit) - 1,
        digitsVal ((t.dropWhile Char.isDigit).drop 1))

/-- Does `t` contain a Unicode digit (`\p{Nd}`), a hyphen and a Unicode
digit at three consecutive positions?  This is exactly when the
unanchored regex `(\d+)-(\d+)` has a match somewhere in `t`. -/
def hasDigitHyphenDigit : List Char → Bool
  | a :: b :: c :: rest =>
    (isNd a && b = '-' && isNd c) || hasDigitHyphenDigit (b :: c :: rest)
  | _ => false

/-- A printable ASCII character that Rust's Debug formatting leaves
untouched (not a quote, not a backslash, no control characters): for
tokens of such characters the error message echoes the token verbatim. -/
def plainChar (c : Char) : Bool :=
  decide (0x20 ≤ c.toNat) && decide (c.toNat < 0x7F) && !(c == '"') && !(c == '\\')

/-! ## Helper lemmas -/

theorem takeWhile_of_all {p : Char → Bool} {l : List Char} (h : l.all p) :
    l.takeWhile p = l := by
  induction l with
  | nil => rfl
  | cons c cs ih =>
    simp only [List.all_cons, Bool.and_eq_true] at h
    simp [List.takeWhile_cons, h.1, ih h.2]

theorem takeWhile_all_append {p : Char → Bool} {l : List Char} {c : Char}
    (h : l.all p) (hc : p c = false) (r : List Char) :
    (l ++ c :: r).takeWhile p = l := by
  induction l with
  | nil => simp [List.takeWhile_cons, hc]
  | cons d ds ih =>
    simp only [List.all_cons, Bool.and_eq_true] at h
    simp [List.takeWhile_cons, h.1, ih h.2]

theorem dropWhile_all_append {p : Char → Bool} {l : List Char} {c : Char}
    (h : l.all p) (hc : p c = false) (r : List Char) :
    (l ++ c :: r).dropWhile p = c :: r := by
  induction l with
  | nil => simp [List.dropWhile_cons, hc]
  | cons d ds ih =>
    simp only [List.all_cons, Bool.and_eq_true] at h
    simp [List.dropWhile_cons, h.1, ih h.2]

theorem contains_plus_eq_false {l : List Char} (h : l.all Char.isDigit) :
    l.contains '+' = false := by
  have hm : '+' ∉ l := by
    intro hmem
    exact absurd (List.all_eq_true.mp h _ hmem) (by decide)
  simpa using hm

theorem stripPlus_eq_self {l : List Char} (h : l.contains '+' = false) :
    stripPlus l = l := by
  cases l with
  | nil => rfl
  | cons c cs =>
    simp only [List.contains_cons, Bool.or_eq_false_iff] at h
    have : c ≠ '+' := by
      intro he
      rw [he] at h
      exact absurd h.1 (by decide)
    simp [stripPlus, this]

theorem parseUsize_of_digits {l : List Char} (h : isDigits l = true) :
    parseUsize l =
      if digitsVal l < USIZE_LIMIT then some (digitsVal l) else none := by
  simp only [isDigits, Bool.and_eq_true, Bool.not_eq_true'] at h
  have hplus := contains_plus_eq_false h.2
  simp [parseUsize, stripPlus_eq_self hplus, h.1, h.2]

theorem convert_of_digits {l : List Char} (h : isDigits l = true)
    (h1 : 1 ≤ digitsVal l) (h2 : digitsVal l < USIZE_LIMIT) :
    convert_to_range_usize l = .ok (digitsVal l - 1) := by
  simp [convert_to_range_usize, parseUsize_of_digits h, h2, Nat.pos_iff_ne_zero.mp h1]

theorem parseUsize_some_inv {l : List Char} {v : Nat}
    (hplus : l.contains '+' = false) (h : parseUsize l = some v) :
    isDigits l = true ∧ v = digitsVal l ∧ v < USIZE_LIMIT := by
  rw [parseUsize, stripPlus_eq_self hplus] at h
  by_cases he : l.isEmpty
  · simp [he] at h
  · by_cases hd : l.all Char.isDigit
    · by_cases hlim : digitsVal l < USIZE_LIMIT
      · simp [he, hd, hlim] at h
        refine ⟨by simp [isDigits, he, hd], h.symm, ?_⟩
        omega
      · simp [he, hd, hlim] at h
    · simp [he, hd] at h

theorem convert_err_of_not_bare {t : List Char}
    (hb : bareTok t = false) (hp : t.contains '+' = false) :
    convert_to_range_usize t = .error (.illegalToken t) := by
  rw [convert_to_range_usize]
  cases h : parseUsize t with
  | none => rfl
  | some v =>
    obtain ⟨hd, hv, hlim⟩ := parseUsize_some_inv hp h
    have : v = 0 := by
      by_contra hne
      rw [bareTok, hd] at hb
      simp [hv ▸ hlim] at hb
      omega
    simp [this]

theorem isDigit_imp_isNd {c : Char} (h : c.isDigit = true) : isNd c = true := by
  rw [Char.isDigit] at h
  simp only [Bool.and_eq_true, decide_eq_true_eq] at h
  obtain ⟨h1, h2⟩ := h
  have hn1 : 48 ≤ c.toNat := h1
  have hn2 : c.toNat ≤ 57 := h2
  rw [isNd, ndRanges]
  simp [List.any_cons, hn1, hn2]

theorem all_isNd_of_all_isDigit {l : List Char} (h : l.all Char.isDigit = true) :
    l.all isNd = true := by
  rw [List.all_eq_true] at h ⊢
  exact fun c hc => isDigit_imp_isNd (h c hc)

theorem hyphenMatchAt_structured {N M : List Char}
    (hN : isDigits N = true) (hM : isDigits M = true) :
    hyphenMatchAt (N ++ '-' :: M) = some (N, M) := by
  simp only [isDigits, Bool.and_eq_true, Bool.not_eq_true'] at hN hM
  have hNnd : N.all isNd = true := all_isNd_of_all_isDigit hN.2
  have hMnd : M.all isNd = true := all_isNd_of_all_isDigit hM.2
  have hdash : isNd '-' = false := by decide
  rw [hyphenMatchAt]
  simp only [takeWhile_all_append hNnd hdash, dropWhile_all_append hNnd hdash,
    takeWhile_of_all hMnd]
  simp [hN.1, hM.1]

theorem findHyphenMatch_structured {N M : List Char}
    (hN : isDigits N = true) (hM : isDigits M = true) :
    findHyphenMatch (N ++ '-' :: M) = some (N, M) := by
  have hne : N ≠ [] := by
    simp only [isDigits, Bool.and_eq_true, Bool.not_eq_true'] at hN
    exact fun he => by simp [he] at hN
  cases N with
  | nil => exact absurd rfl hne
  | cons c cs =>
    rw [List.cons_append, findHyphenMatch, ← List.cons_append,
      hyphenMatchAt_structured (N := c :: cs) hN hM]

theorem hasDHD_cons {c : Char} {cs : List Char}
    (h : hasDigitHyphenDigit cs = true) : hasDigitHyphenDigit (c :: cs) = true := by
  match cs with
  | [] => exact absurd h (by simp [hasDigitHyphenDigit])
  | [x] => exact absurd h (by simp [hasDigitHyphenDigit])
  | x :: y :: rest => simp [hasDigitHyphenDigit, h]

theorem hasDHD_of_structured {N : List Char} {m : Char} (r : List Char)
    (hne : N ≠ []) (hdig : N.all isNd = true) (hm : isNd m = true) :
    hasDigitHyphenDigit (N ++ '-' :: m :: r) = true := by
  induction N with
  | nil => exact absurd rfl hne
  | cons d ds ih =>
    simp only [List.all_cons, Bool.and_eq_true] at hdig
    cases ds with
    | nil => simp [hasDigitHyphenDigit, hdig.1, hm]
    | cons d2 ds2 =>
      have := ih (by simp) hdig.2
      exact hasDHD_cons this

theorem hyphenMatchAt_none {l : List Char}
    (h : hasDigitHyphenDigit l = false) : hyphenMatchAt l = none := by
  rw [hyphenMatchAt]
  by_cases he : (l.takeWhile isNd).isEmpty
  · simp [he]
  · rw [if_neg he]
    split
    case _ rest2 hd =>
      cases rest2 with
      | nil => simp
      | cons m r =>
        by_cases hm : isNd m
        · exfalso
          have hstruct : l = l.takeWhile isNd ++ '-' :: m :: r := by
            conv_lhs =>
              rw [← List.takeWhile_append_dropWhile (p := isNd) (l := l)]
            rw [hd]
          have hne : l.takeWhile isNd ≠ [] := by
            intro he2
            rw [he2] at he
            exact he (by simp)
          have hdig : (l.takeWhile isNd).all isNd = true := by
            rw [List.all_eq_true]
            exact fun x hx => List.mem_takeWhile_imp hx
          have htrue := hasDHD_of_structured r hne hdig hm
          rw [← hstruct] at htrue
          rw [htrue] at h
          cases h
        · simp [List.takeWhile_cons, Bool.of_not_eq_true hm]
    case _ =>
      rfl

theorem findHyphenMatch_none {l : List Char}
    (h : hasDigitHyphenDigit l = false) : findHyphenMatch l = none := by
  induction l with
  | nil => rfl
  | cons c cs ih =>
    have hcs : hasDigitHyphenDigit cs = false := by
      cases hx : hasDigitHyphenDigit cs with
      | false => rfl
      | true => rw [hasDHD_cons hx] at h; cases h
    rw [findHyphenMatch, hyphenMatchAt_none h, ih hcs]

theorem parsePosItem_ok_of_validTok {t : List Char} (h : validTok t = true) :
    parsePosItem t = .ok (tokVal t) := by
  rw [validTok, Bool.or_eq_true] at h
  rcases h with hb | hh
  · rw [bareTok] at hb
    simp only [Bool.and_eq_true, decide_eq_true_eq] at hb
    obtain ⟨⟨hd, h1⟩, h2⟩ := hb
    have hdig : t.all Char.isDigit = true := by
      rw [isDigits, Bool.and_eq_true] at hd
      exact hd.2
    have hplus := contains_plus_eq_false hdig
    have hbt : bareTok t = true := by
      rw [bareTok, hd]
      simp [h1, h2]
    simp only [parsePosItem, hplus, Bool.false_eq_true, if_false,
      convert_of_digits hd h1 h2, tokVal, hbt, if_true]
    have : digitsVal t - 1 + 1 = digitsVal t := by omega
    rw [this]
  · rw [hyphTok] at hh
    split at hh
    case _ m hd =>
      simp only [Bool.and_eq_true, Bool.not_eq_true', decide_eq_true_eq] at hh
      obtain ⟨⟨⟨⟨hne, hm⟩, h1⟩, hlt⟩, hlim⟩ := hh
      set N := t.takeWhile Char.isDigit with hNdef
      have hNdig : isDigits N = true := by
        rw [isDigits, Bool.and_eq_true, hne]
        refine ⟨rfl, ?_⟩
        rw [List.all_eq_true]
        exact fun x hx => List.mem_takeWhile_imp hx
      have hstruct : t = N ++ '-' :: m := by
        conv_lhs =>
          rw [← List.takeWhile_append_dropWhile (p := Char.isDigit) (l := t)]
        rw [hd]
      have hNall : N.all Char.isDigit = true := by
        rw [isDigits, Bool.and_eq_true] at hNdig
        exact hNdig.2
      have hMall : m.all Char.isDigit = true := by
        rw [isDigits, Bool.and_eq_true] at hm
        exact hm.2
      have hplus : t.contains '+' = false := by
        rw [hstruct]
        have hmem : '+' ∉ N ++ '-' :: m := by
          intro hmem
          rcases List.mem_append.mp hmem with hmem | hmem
          · exact absurd (List.all_eq_true.mp hNall _ hmem) (by decide)
          · rcases List.mem_cons.mp hmem with hmem | hmem
            · cases hmem
            · exact absurd (List.all_eq_true.mp hMall _ hmem) (by decide)
        simpa using hmem
      have hbfalse : bareTok t = false := by
        rw [bareTok, isDigits]
        have : t.all Char.isDigit = false := by
          cases hall : t.all Char.isDigit with
          | false => rfl
          | true =>
            have : Char.isDigit '-' = true := by
              refine List.all_eq_true.mp hall _ ?_
              rw [hstruct]
              exact List.mem_append.mpr (Or.inr (List.mem_cons_self _ _))
            cases this
        simp [this]
      have hfind : findHyphenMatch t = some (N, m) := by
        rw [hstruct]
        exact findHyphenMatch_structured hNdig hm
      have hge : ¬ (digitsVal N - 1 ≥ digitsVal m - 1) := by omega
      simp only [parsePosItem, hplus, Bool.false_eq_true, if_false,
        convert_err_of_not_bare hbfalse hplus, hfind,
        convert_of_digits hNdig h1 (lt_trans hlt hlim),
        convert_of_digits hm (le_trans h1 (le_of_lt hlt)) hlim,
        ge_iff_le, hge, if_neg hge, tokVal, hbfalse, if_false, hd]
      have : digitsVal m - 1 + 1 = digitsVal m := by omega
      simp only [List.drop_one, List.tail_cons, ← hNdef, this]
    case _ =>
      cases hh

theorem parsePosItem_illegal_of_plus {t : List Char}
    (h : t.contains '+' = true) : parsePosItem t = .error (.illegalToken t) := by
  rw [parsePosItem, h]
  rfl

theorem parsePosItem_illegal {t : List Char}
    (h : t.contains '+' = true ∨
      (bareTok t = false ∧ hasDigitHyphenDigit t = false)) :
    parsePosItem t = .error (.illegalToken t) := by
  cases hp : t.contains '+' with
  | true => exact parsePosItem_illegal_of_plus hp
  | false =>
    rcases h with h | ⟨hb, hd⟩
    · rw [hp] at h
      cases h
    · simp only [parsePosItem, hp, Bool.false_eq_true, if_false,
        convert_err_of_not_bare hb hp, findHyphenMatch_none hd]

theorem parsePosItem_fst_lt_snd {t : List Char} {p : Nat × Nat}
    (h : parsePosItem t = .ok p) : p.1 < p.2 := by
  rw [parsePosItem] at h
  split at h
  · cases h
  · split at h
    case _ i heq =>
      cases h
      simp
    case _ =>
      split at h
      · cases h
      · split at h
        · cases h
        · split at h
          · cases h
          · split at h
            · cases h
            · cases h
              simp
              omega

theorem splitOnComma_ne_nil (s : List Char) : splitOnComma s ≠ [] := by
  induction s with
  | nil => simp [splitOnComma]
  | cons c cs ih =>
    rw [splitOnComma]
    split
    · simp
    · split
      · simp
      · simp

theorem parsePosList_ok_of_all {ts : List (List Char)}
    (h : ∀ t ∈ ts, validTok t = true) :
    parsePosList ts = .ok (ts.map tokVal) := by
  induction ts with
  | nil => rfl
  | cons t ts ih =>
    rw [parsePosList, parsePosItem_ok_of_validTok (h t (List.mem_cons_self t ts)),
      ih (fun u hu => h u (List.mem_cons_of_mem t hu))]
    rfl

theorem parsePosList_append_err {pre post : List (List Char)}
    {item : List Char} {e : ParseError}
    (hpre : ∀ t ∈ pre, validTok t = true)
    (hitem : parsePosItem item = .error e) :
    parsePosList (pre ++ item :: post) = .error e := by
  induction pre with
  | nil =>
    rw [List.nil_append, parsePosList, hitem]
  | cons t ts ih =>
    rw [List.cons_append, parsePosList,
      parsePosItem_ok_of_validTok (hpre t (List.mem_cons_self t ts)),
      ih (fun u hu => hpre u (List.mem_cons_of_mem t hu))]

theorem parsePosList_ok_inv {ts : List (List Char)} {l : List (Nat × Nat)}
    (h : parsePosList ts = .ok l) :
    l.length = ts.length ∧ ∀ p ∈ l, p.1 < p.2 := by
  induction ts generalizing l with
  | nil =>
    rw [parsePosList] at h
    cases h
    simp
  | cons t ts ih =>
    rw [parsePosList] at h
    split at h
    · cases h
    case _ r hr =>
      split at h
      · cases h
      case _ rest hrest =>
        cases h
        obtain ⟨hlen, hmem⟩ := ih hrest
        refine ⟨by simp [hlen], ?_⟩
        intro p hp
        rcases List.mem_cons.mp hp with hp | hp
        · rw [hp]
          exact parsePosItem_fst_lt_snd hr
        · exact hmem p hp

theorem filterMap_get_eq {α : Type} (l : List α) (d : α) (idx : List Nat) :
    idx.filterMap (fun i => l.get? i)
      = (idx.filter (fun i => decide (i < l.length))).map (fun i => l.getD i d) := by
  induction idx with
  | nil => rfl
  | cons i is ih =>
    by_cases hi : i < l.length
    · rw [List.filterMap_cons, List.filter_cons]
      simp only [hi, decide_True, if_true, List.get?_eq_get hi, List.map_cons, ih]
      congr 1
      rw [List.getD_eq_getElem?_getD, List.getElem?_eq_getElem hi]
      rfl
    · rw [List.filterMap_cons, List.filter_cons]
      simp only [hi, decide_False]
      rw [List.get?_eq_none.mpr (by omega), ih]
      simp

theorem filterMap_get_oob {α : Type} {l : List α} {r : Nat × Nat}
    (h : l.length ≤ r.1) :
    (rangeIndices r).filterMap (fun i => l.get? i) = [] := by
  rw [List.filterMap_eq_nil_iff]
  intro i hi
  rw [rangeIndices, List.mem_range'] at hi
  obtain ⟨k, _, hk⟩ := hi
  rw [List.get?_eq_none]
  omega

theorem escDebugChar_plain {c : Char} (h : plainChar c = true) :
    escDebugChar c = [c] := by
  rw [plainChar] at h
  simp only [Bool.and_eq_true, Bool.not_eq_true', beq_eq_false_iff_ne,
    decide_eq_true_eq] at h
  obtain ⟨⟨⟨h1, h2⟩, h3⟩, h4⟩ := h
  have hlow : ∀ (d : Char), d.toNat < 0x20 → c ≠ d := by
    intro d hd he
    rw [he] at h1
    omega
  rw [escDebugChar, if_neg h3, if_neg h4,
    if_neg (hlow '\n' (by decide)), if_neg (hlow '\t' (by decide)),
    if_neg (hlow '\r' (by decide))]
  have hcond : (decide (c.toNat < 0x20) || (c.toNat == 0x7F)) = false := by
    have hn1 : ¬ c.toNat < 0x20 := by omega
    have hn2 : ¬ c.toNat = 0x7F := by omega
    simp [hn1, hn2]
  rw [if_neg (by simp [hcond])]

theorem flatten_escDebug_plain {l : List Char} (h : l.all plainChar = true) :
    (l.map escDebugChar).flatten = l := by
  induction l with
  | nil => rfl
  | cons c cs ih =>
    rw [List.all_cons, Bool.and_eq_true] at h
    rw [List.map_cons, List.flatten_cons, escDebugChar_plain h.1, ih h.2]
    rfl

theorem message_illegal_plain {item : List Char} (h : item.all plainChar = true) :
    (ParseError.illegalToken item).message
      = "illegal list value: \"".data ++ item ++ "\"".data := by
  rw [ParseError.message, rustDebugStr, flatten_escDebug_plain h]
  have hpre : ("illegal list value: \"".data : List Char)
      = "illegal list value: ".data ++ ['"'] := by decide
  rw [hpre]
  simp

theorem contains_plus_structured {N M : List Char}
    (hN : N.all Char.isDigit = true) (hM : M.all Char.isDigit = true) :
    (N ++ '-' :: M).contains '+' = false := by
  have hmem : '+' ∉ N ++ '-' :: M := by
    intro hmem
    rcases List.mem_append.mp hmem with hmem | hmem
    · exact absurd (List.all_eq_true.mp hN _ hmem) (by decide)
    · rcases List.mem_cons.mp hmem with hmem | hmem
      · cases hmem
      · exact absurd (List.all_eq_true.mp hM _ hmem) (by decide)
  simpa using hmem

theorem bareTok_structured_false {N M : List Char} :
    bareTok (N ++ '-' :: M) = false := by
  rw [bareTok, isDigits]
  have : (N ++ '-' :: M).all Char.isDigit = false := by
    cases hall : (N ++ '-' :: M).all Char.isDigit with
    | false => rfl
    | true =>
      have : Char.isDigit '-' = true :=
        List.all_eq_true.mp hall _
          (List.mem_append.mpr (Or.inr (List.mem_cons_self _ _)))
      cases this
  simp [this]

theorem parsePosItem_rangeOrder_structured {N M : List Char}
    (hN : isDigits N = true) (hM : isDigits M = true)
    (h1 : 1 ≤ digitsVal N) (h2 : 1 ≤ digitsVal M)
    (hlimN : digitsVal N < USIZE_LIMIT) (hlimM : digitsVal M < USIZE_LIMIT)
    (hge : digitsVal M ≤ digitsVal N) :
    parsePosItem (N ++ '-' :: M) = .error (.rangeOrder (digitsVal N) (digitsVal M)) := by
  have hNall : N.all Char.isDigit = true := by
    rw [isDigits, Bool.and_eq_true] at hN
    exact hN.2
  have hMall : M.all Char.isDigit = true := by
    rw [isDigits, Bool.and_eq_true] at hM
    exact hM.2
  have hplus := contains_plus_structured hNall hMall
  have hcond : digitsVal N - 1 ≥ digitsVal M - 1 := by omega
  simp only [parsePosItem, hplus, Bool.false_eq_true, if_false,
    convert_err_of_not_bare bareTok_structured_false hplus,
    findHyphenMatch_structured hN hM,
    convert_of_digits hN h1 hlimN, convert_of_digits hM h2 hlimM,
    ge_iff_le, if_pos hcond]
  have e1 : digitsVal N - 1 + 1 = digitsVal N := by omega
  have e2 : digitsVal M - 1 + 1 = digitsVal M := by omega
  rw [e1, e2]

/-! ## Claim theorems -/

/-- C1, counterexample.  The claim says every token matching neither the
bare-number grammar nor the whole-token hyphenated grammar (listing
`"1-2-3"`, `"1-1-1"`, `"a1-2"` among its examples) produces an
`IllegalToken` error whose message echoes the exact offending token, and
never a position list.  The regex `(\d+)-(\d+)` in the source is
unanchored and its `\d` is the Unicode class `\p{Nd}`, so `"1-2-3"` and
`"a1-2"` parse successfully via their first `digits-hyphen-digits`
substring, `"1-1-1"` fails with a `RangeOrder` error rather than an
`IllegalToken` one, and `"１-2"` (fullwidth digit, matching neither of
the claim's ASCII grammars) fails with an `IllegalToken` echoing the
capture `"１"`, not the whole token. -/
theorem C1_counterexample :
    parse_pos "1-2-3".data = .ok [(0, 2)]
      ∧ parse_pos "a1-2".data = .ok [(0, 2)]
      ∧ parse_pos "1-1-1".data = .error (.rangeOrder 1 1)
      ∧ parse_pos "１-2".data = .error (.illegalToken "１".data) :=
  ⟨rfl, rfl, rfl, rfl⟩

/-- C1, amended: for every selector string, if the tokens before `item`
are all valid and `item` either contains `'+'` or fails the bare-number
rule while containing no digit-hyphen-digit substring — digits per the
Unicode class `\p{Nd}` that the regex crate's default `\d` matches, so
the unanchored regex `(\d+)-(\d+)` cannot match anywhere in `item` —
then parse fails with an `IllegalToken` error carrying exactly `item`;
for tokens of plain printable ASCII the message is exactly
`illegal list value: "<token>"`. -/
theorem C1_illegal_token (s item : List Char) (pre post : List (List Char))
    (hsplit : splitOnComma s = pre ++ item :: post)
    (hpre : ∀ t ∈ pre, validTok t = true)
    (hbad : item.contains '+' = true
      ∨ (bareTok item = false ∧ hasDigitHyphenDigit item = false)) :
    parse_pos s = .error (.illegalToken item)
      ∧ (item.all plainChar = true →
          (ParseError.illegalToken item).message
            = "illegal list value: \"".data ++ item ++ "\"".data) := by
  refine ⟨?_, fun hplain => message_illegal_plain hplain⟩
  rw [parse_pos, hsplit]
  exact parsePosList_append_err hpre (parsePosItem_illegal hbad)

/-- C1 witness: `parse("1,a")` fails with `illegal list value: "a"`, the
exact offending token echoed. -/
theorem C1_illegal_token_witness :
    parse_pos "1,a".data = .error (.illegalToken "a".data)
      ∧ (ParseError.illegalToken "a".data).message
          = "illegal list value: \"a\"".data := by
  have h := C1_illegal_token "1,a".data "a".data [['1']] [] (by rfl)
    (by decide) (Or.inr (by decide))
  exact ⟨h.1, (h.2 (by decide)).trans (by decide)⟩

/-- C2: a selector string all of whose comma-separated tokens are valid
parses to exactly one range per token, in token order: a bare token of
value `v ≥ 1` yields `[v-1, v)` and a hyphenated token `N-M` with
`N < M` yields `[N-1, M)` (`tokVal`), with no reordering, merging or
deduplication. -/
theorem C2_per_token_ranges (s : List Char)
    (h : ∀ t ∈ splitOnComma s, validTok t = true) :
    parse_pos s = .ok ((splitOnComma s).map tokVal) := by
  rw [parse_pos]
  exact parsePosList_ok_of_all h

/-- C2 witness: `parse("1,7,3-5") = [[0,1),[6,7),[2,5)]` and
`parse("15,19-20") = [[14,15),[18,20)]`. -/
theorem C2_per_token_ranges_witness :
    parse_pos "1,7,3-5".data = .ok [(0, 1), (6, 7), (2, 5)]
      ∧ parse_pos "15,19-20".data = .ok [(14, 15), (18, 20)] :=
  ⟨(C2_per_token_ranges "1,7,3-5".data (by decide)).trans (by rfl),
   (C2_per_token_ranges "15,19-20".data (by decide)).trans (by rfl)⟩

/-- C3: a hyphenated token `N-M` whose two numbers both parse (digits,
value at least 1, below the `usize` bound) but with `N ≥ M` makes parse
fail with a `RangeOrder` error carrying the 1-based numbers after
leading-zero normalization, and the message reads exactly
`First number in range (<N>) must be lower than second number (<M>)`. -/
theorem C3_range_order (s : List Char) (pre post : List (List Char))
    (N M : List Char)
    (hsplit : splitOnComma s = pre ++ (N ++ '-' :: M) :: post)
    (hpre : ∀ t ∈ pre, validTok t = true)
    (hN : isDigits N = true) (hM : isDigits M = true)
    (h1 : 1 ≤ digitsVal N) (h2 : 1 ≤ digitsVal M)
    (hlimN : digitsVal N < USIZE_LIMIT) (hlimM : digitsVal M < USIZE_LIMIT)
    (hge : digitsVal M ≤ digitsVal N) :
    parse_pos s = .error (.rangeOrder (digitsVal N) (digitsVal M))
      ∧ (ParseError.rangeOrder (digitsVal N) (digitsVal M)).message
          = "First number in range (".data ++ (Nat.repr (digitsVal N)).data
            ++ ") must be lower than second number (".data
            ++ (Nat.repr (digitsVal M)).data ++ [')'] := by
  refine ⟨?_, rfl⟩
  rw [parse_pos, hsplit]
  exact parsePosList_append_err hpre
    (parsePosItem_rangeOrder_structured hN hM h1 h2 hlimN hlimM hge)

/-- C3 witness: `parse("1-1")` reports `RangeOrder(1,1)` and
`parse("2-1")` reports `RangeOrder(2,1)`, with the exact messages. -/
theorem C3_range_order_witness :
    parse_pos "1-1".data = .error (.rangeOrder 1 1)
      ∧ parse_pos "2-1".data = .error (.rangeOrder 2 1)
      ∧ (ParseError.rangeOrder 1 1).message
          = "First number in range (1) must be lower than second number (1)".data
      ∧ (ParseError.rangeOrder 2 1).message
          = "First number in range (2) must be lower than second number (1)".data := by
  have ha := C3_range_order "1-1".data [] [] ['1'] ['1'] (by rfl) (by decide)
    (by decide) (by decide) (by decide) (by decide) (by decide) (by decide)
    (by decide)
  have hb := C3_range_order "2-1".data [] [] ['2'] ['1'] (by rfl) (by decide)
    (by decide) (by decide) (by decide) (by decide) (by decide) (by decide)
    (by decide)
  exact ⟨ha.1, hb.1, by decide, by decide⟩

/-- C4: a token containing `'+'` anywhere is rejected before anything else
is tried, with an `IllegalToken` error echoing the whole token (message
`illegal list value: "<token>"` for plain-ASCII tokens). -/
theorem C4_plus_rejected (s item : List Char) (pre post : List (List Char))
    (hsplit : splitOnComma s = pre ++ item :: post)
    (hpre : ∀ t ∈ pre, validTok t = true)
    (hplus : item.contains '+' = true) :
    parse_pos s = .error (.illegalToken item)
      ∧ (item.all plainChar = true →
          (ParseError.illegalToken item).message
            = "illegal list value: \"".data ++ item ++ "\"".data) := by
  refine ⟨?_, fun hplain => message_illegal_plain hplain⟩
  rw [parse_pos, hsplit]
  exact parsePosList_append_err hpre (parsePosItem_illegal_of_plus hplus)

/-- C4 witness: `parse("+1")` and `parse("1-+2")` both fail with the full
token echoed. -/
theorem C4_plus_rejected_witness :
    parse_pos "+1".data = .error (.illegalToken "+1".data)
      ∧ parse_pos "1-+2".data = .error (.illegalToken "1-+2".data)
      ∧ (ParseError.illegalToken "+1".data).message
          = "illegal list value: \"+1\"".data
      ∧ (ParseError.illegalToken "1-+2".data).message
          = "illegal list value: \"1-+2\"".data := by
  have ha := C4_plus_rejected "+1".data "+1".data [] [] (by rfl) (by decide)
    (by decide)
  have hb := C4_plus_rejected "1-+2".data "1-+2".data [] [] (by rfl)
    (by decide) (by decide)
  exact ⟨ha.1, hb.1, (ha.2 (by decide)).trans (by decide),
    (hb.2 (by decide)).trans (by decide)⟩

/-- C5: whenever parse succeeds the returned position list is non-empty
and every range satisfies `start < end`; a failing parse returns an error
value and never a partial list (the result type is all-or-nothing). -/
theorem C5_parse_invariants (s : List Char) (l : List (Nat × Nat))
    (h : parse_pos s = .ok l) :
    l ≠ [] ∧ ∀ p ∈ l, p.1 < p.2 := by
  rw [parse_pos] at h
  obtain ⟨hlen, hmem⟩ := parsePosList_ok_inv h
  refine ⟨?_, hmem⟩
  intro hnil
  exact splitOnComma_ne_nil s
    (List.length_eq_zero.mp (by simpa [hnil] using hlen.symm))

/-- C5 witness at `"1,3"`. -/
theorem C5_parse_invariants_witness :
    ([(0, 1), (2, 3)] : List (Nat × Nat)) ≠ []
      ∧ ∀ p ∈ ([(0, 1), (2, 3)] : List (Nat × Nat)), p.1 < p.2 :=
  C5_parse_invariants "1,3".data [(0, 1), (2, 3)] (by rfl)

/-- C6: `extract_chars` returns exactly the concatenation, in range order
and index order, of the characters of the line at each in-bounds index,
skipping out-of-bounds indices; indexing is over decoded characters (the
line is a `List Char`), so multi-byte characters are never split; and
`extractChars("abc", [[0,1),[2,3)]) = "ac"`. -/
theorem C6_extract_chars :
    (∀ (line : List Char) (pos : List (Nat × Nat)),
      extract_chars line pos
        = (pos.map fun r =>
            ((rangeIndices r).filter fun i => decide (i < line.length)).map
              fun i => line.getD i ' ').flatten)
      ∧ extract_chars "abc".data [(0, 1), (2, 3)] = "ac".data := by
  refine ⟨fun line pos => ?_, rfl⟩
  rw [extract_chars]
  have hfun : (fun r => (rangeIndices r).filterMap fun i => line.get? i)
      = fun r => ((rangeIndices r).filter fun i => decide (i < line.length)).map
          fun i => line.getD i ' ' :=
    funext fun r => filterMap_get_eq line ' ' (rangeIndices r)
  rw [hfun]

/-- C7, counterexample.  The claim says lossy decoding replaces each
maximal invalid byte run with a single replacement marker.  Selecting the
two continuation bytes at indices 1 and 4 of `"ああ"` accumulates the
byte run `[0x81, 0x81]` — a single maximal invalid run — yet Rust's
`from_utf8_lossy` (substitution of maximal subparts) produces two U+FFFD
markers, one per invalid byte. -/
theorem C7_counterexample :
    extract_bytes "ああ".data [(1, 2), (4, 5)]
        = [replacementChar, replacementChar]
      ∧ (([(1, 2), (4, 5)] : List (Nat × Nat)).map fun r =>
          (rangeIndices r).filterMap fun i =>
            (strBytes "ああ".data).get? i).flatten = [0x81, 0x81] :=
  ⟨rfl, rfl⟩

/-- C7, amended: `extract_bytes` collects, in range order, every in-bounds
byte of the line whose index lies in a range (skipping out-of-bounds
indices without error or padding), then lossily decodes the accumulated
bytes, replacing invalid sequences with U+FFFD markers — one marker per
maximal subpart of a valid sequence (or per single invalid byte), so an
invalid run can yield several markers; a range that splits a multi-byte
character yields a replacement marker rather than an error. -/
theorem C7_extract_bytes :
    (∀ (line : List Char) (pos : List (Nat × Nat)),
      extract_bytes line pos
        = utf8Lossy ((pos.map fun r =>
            ((rangeIndices r).filter fun i =>
              decide (i < (strBytes line).length)).map
              fun i => (strBytes line).getD i 0).flatten))
      ∧ extract_bytes "あ".data [(0, 2)] = [replacementChar]
      ∧ extract_bytes "あ".data [(0, 3)] = "あ".data := by
  refine ⟨fun line pos => ?_, rfl, rfl⟩
  rw [extract_bytes]
  have hfun : (fun r => (rangeIndices r).filterMap fun i => (strBytes line).get? i)
      = fun r => ((rangeIndices r).filter fun i =>
          decide (i < (strBytes line).length)).map
          fun i => (strBytes line).getD i 0 :=
    funext fun r => filterMap_get_eq (strBytes line) 0 (rangeIndices r)
  rw [hfun]

/-- C8: `extract_fields` returns the fields at each in-bounds index in
range order, duplicates preserved, indices beyond the record length
skipped rather than padded; `extractFields(["Captain","Sham","12345"],
[[0,1),[2,3)]) = ["Captain","12345"]` and a fully out-of-range range like
`[5,6)` contributes nothing. -/
theorem C8_extract_fields :
    (∀ (record : List (List Char)) (pos : List (Nat × Nat)),
      extract_fields record pos
        = (pos.map fun r =>
            ((rangeIndices r).filter fun i => decide (i < record.length)).map
              fun i => record.getD i []).flatten)
      ∧ extract_fields ["Captain".data, "Sham".data, "12345".data]
          [(0, 1), (2, 3)] = ["Captain".data, "12345".data]
      ∧ extract_fields ["Captain".data, "Sham".data, "12345".data]
          [(5, 6)] = []
      ∧ extract_fields ["Captain".data, "Sham".data, "12345".data]
          [(0, 1), (0, 1)] = ["Captain".data, "Captain".data] := by
  refine ⟨fun record pos => ?_, rfl, rfl, rfl⟩
  rw [extract_fields]
  have hfun : (fun r => (rangeIndices r).filterMap fun i => record.get? i)
      = fun r => ((rangeIndices r).filter fun i => decide (i < record.length)).map
          fun i => record.getD i [] :=
    funext fun r => filterMap_get_eq record [] (rangeIndices r)
  rw [hfun]

/-- C9: the three extractors are total functions of their inputs, and an
out-of-bounds range is a no-op, not a fault: inserting a range lying
entirely beyond the record changes nothing in any mode. -/
theorem C9_oob_noop (line : List Char) (record : List (List Char))
    (pos1 pos2 : List (Nat × Nat)) (r : Nat × Nat)
    (hc : line.length ≤ r.1) (hb : (strBytes line).length ≤ r.1)
    (hf : record.length ≤ r.1) :
    extract_chars line (pos1 ++ r :: pos2) = extract_chars line (pos1 ++ pos2)
      ∧ extract_bytes line (pos1 ++ r :: pos2) = extract_bytes line (pos1 ++ pos2)
      ∧ extract_fields record (pos1 ++ r :: pos2)
          = extract_fields record (pos1 ++ pos2) := by
  refine ⟨?_, ?_, ?_⟩
  · rw [extract_chars, extract_chars, List.map_append, List.map_append,
      List.map_cons, filterMap_get_oob hc, List.flatten_append,
      List.flatten_append, List.flatten_cons, List.nil_append]
  · rw [extract_bytes, extract_bytes, List.map_append, List.map_append,
      List.map_cons, filterMap_get_oob hb, List.flatten_append,
      List.flatten_append, List.flatten_cons, List.nil_append]
  · rw [extract_fields, extract_fields, List.map_append, List.map_append,
      List.map_cons, filterMap_get_oob hf, List.flatten_append,
      List.flatten_append, List.flatten_cons, List.nil_append]

/-- C9 witness: inserting the fully out-of-bounds range `[5,6)` into a
position list is a no-op on the line `"abc"` and a two-field record. -/
theorem C9_oob_noop_witness :
    extract_chars "abc".data [(0, 1), (5, 6), (2, 3)]
        = extract_chars "abc".data [(0, 1), (2, 3)]
      ∧ extract_bytes "abc".data [(0, 1), (5, 6), (2, 3)]
          = extract_bytes "abc".data [(0, 1), (2, 3)]
      ∧ extract_fields ["a".data, "b".data] [(0, 1), (5, 6), (1, 2)]
          = extract_fields ["a".data, "b".data] [(0, 1), (1, 2)] := by
  have h1 := C9_oob_noop "abc".data ["a".data, "b".data]
    [(0, 1)] [(2, 3)] (5, 6) (by decide) (by decide) (by decide)
  have h2 := C9_oob_noop "abc".data ["a".data, "b".data]
    [(0, 1)] [(1, 2)] (5, 6) (by decide) (by decide) (by decide)
  exact ⟨h1.1, h1.2.1, h2.2.2⟩

/-- C10: extraction over characters and over fields is a homomorphism
from position-list concatenation to output concatenation; for bytes the
lossy decoding happens after accumulation, so the corresponding law fails
(splitting the byte accumulation of `"あ"` between two calls turns one
decoded character into three replacement markers). -/
theorem C10_concat_hom :
    (∀ (line : List Char) (r1 r2 : List (Nat × Nat)),
      extract_chars line (r1 ++ r2)
        = extract_chars line r1 ++ extract_chars line r2)
      ∧ (∀ (record : List (List Char)) (r1 r2 : List (Nat × Nat)),
          extract_fields record (r1 ++ r2)
            = extract_fields record r1 ++ extract_fields record r2)
      ∧ ¬ (∀ (line : List Char) (r1 r2 : List (Nat × Nat)),
          extract_bytes line (r1 ++ r2)
            = extract_bytes line r1 ++ extract_bytes line r2) := by
  refine ⟨?_, ?_, ?_⟩
  · intro line r1 r2
    rw [extract_chars, extract_chars, extract_chars, List.map_append,
      List.flatten_append]
  · intro record r1 r2
    rw [extract_fields, extract_fields, extract_fields, List.map_append,
      List.flatten_append]
  · intro h
    have hbad := h "あ".data [(0, 1)] [(1, 3)]
    exact absurd hbad (by decide)

end Cutr
